import Mathlib

/-!
Verification of the incremental time-series scraping pipeline
(`src/scraping/scrapers/candles.py`, `src/scraping/scrapers/inside_trades.py`,
`src/scraping/scrapers/market_indicators.py`, `src/scraping/orchestrator.py`).

Dates are modelled as natural numbers (day indices; ISO dates are totally
ordered, so any strictly monotone encoding is faithful).  Numeric cell values
(prices, share counts, dollar amounts) are modelled as rationals.  `pandas`
`sort_values('date')` is modelled as a stable merge sort on the date column,
and `drop_duplicates(subset=ks, keep='last')` as the function keeping a row
exactly when no later row shares its dedupe key.  Reading/writing CSV files is
modelled as a store mapping ticker names to optional row lists (`none` = the
file does not exist).
-/

namespace StockPrediction

/-- One OHLCV row, as written to `{ticker}_daily.csv` by `candles.py`
(columns `date, open, high, low, close, volume`). -/
structure CandleRow where
  date : Nat
  open_ : Rat
  high : Rat
  low : Rat
  close : Rat
  volume : Rat
deriving DecidableEq, Repr

/-- One aggregated insider-trade row, as written to
`{ticker}_insider_trades_daily.csv` by `inside_trades.py`
(columns `date, shares, amount, buy_flag`). -/
structure TradeRow where
  date : Nat
  shares : Rat
  amount : Rat
  buy_flag : Nat
deriving DecidableEq, Repr

/-- The dedupe key used by `inside_trades.py`:
`drop_duplicates(subset=['date', 'buy_flag'], keep='last')`. -/
def keyTrade (r : TradeRow) : Nat × Nat := (r.date, r.buy_flag)

/-- One raw parsed Form 4 transaction, the `(date, shares, amount, buy_flag)`
tuples produced by `parse_form4` in `inside_trades.py`. -/
structure Txn where
  date : Nat
  shares : Rat
  amount : Rat
  buy_flag : Nat
deriving DecidableEq, Repr

/-- The grouping key of `aggregate_by_day`: `key = (date, flag)`. -/
def txnKey (t : Txn) : Nat × Nat := (t.date, t.buy_flag)

section Merge

variable {ρ : Type} {κ : Type} (dateOf : ρ → Nat) (key : ρ → κ) [DecidableEq κ]

/-- The maximum date of a series, as computed by the scripts' max over the
date column (0 for the empty series, which the scripts never consult). -/
def maxDate (rows : List ρ) : Nat :=
  rows.foldr (fun r m => max (dateOf r) m) 0

/-- The scripts' sort-by-date over a data frame, modelled as a stable
merge sort comparing only the date column. -/
def sort_values (rows : List ρ) : List ρ :=
  rows.mergeSort (fun a b => decide (dateOf a ≤ dateOf b))

/-- The scripts' duplicate removal keeping the last occurrence: keep a row
exactly when no later row has the same dedupe key. -/
def drop_duplicates_keep_last : List ρ → List ρ
  | [] => []
  | r :: rs =>
    if rs.any (fun r2 => decide (key r2 = key r)) then
      drop_duplicates_keep_last rs
    else
      r :: drop_duplicates_keep_last rs

/-- The shared incremental-update merge of `candles.py` lines 80-88 and
`inside_trades.py` lines 183-190:
filter `incoming` to dates strictly greater than `existing`'s max date;
if nothing is left return `existing` unchanged; otherwise concatenate,
sort by date, and deduplicate keeping the last occurrence. -/
def upsert (existing incoming : List ρ) : List ρ :=
  let last_date := maxDate dateOf existing
  let new_data := incoming.filter (fun r => decide (last_date < dateOf r))
  if new_data.isEmpty then existing
  else drop_duplicates_keep_last key (sort_values dateOf (existing ++ new_data))

end Merge

/-- The candle-series instantiation of the merge: dedupe key is the date
(`drop_duplicates(subset=['date'], keep='last')` in `candles.py`). -/
def upsertCandles (existing incoming : List CandleRow) : List CandleRow :=
  upsert CandleRow.date CandleRow.date existing incoming

/-- The insider-trade instantiation of the merge: dedupe key is
`(date, buy_flag)` (`inside_trades.py` line 189). -/
def upsertTrades (existing incoming : List TradeRow) : List TradeRow :=
  upsert TradeRow.date keyTrade existing incoming

/-- One `daily` accumulation step of `aggregate_by_day` (`inside_trades.py`
lines 69-74): look the key up in the insertion-ordered dict; create a zero
entry when absent; add the transaction's shares and amount. -/
def addTxn (daily : List ((Nat × Nat) × Rat × Rat)) (t : Txn) :
    List ((Nat × Nat) × Rat × Rat) :=
  let k := txnKey t
  if daily.any (fun e => decide (e.1 = k)) then
    daily.map (fun e => if e.1 = k then (e.1, e.2.1 + t.shares, e.2.2 + t.amount) else e)
  else
    daily ++ [(k, t.shares, t.amount)]

/-- The comparison used by Python's `sorted` on the 4-tuples
`(date, shares, amount, buy_flag)` in `aggregate_by_day` line 76:
lexicographic over all four components, in that order. -/
def tupLe (a b : Nat × Rat × Rat × Nat) : Bool :=
  decide (a.1 < b.1) ||
    (decide (a.1 = b.1) &&
      (decide (a.2.1 < b.2.1) ||
        (decide (a.2.1 = b.2.1) &&
          (decide (a.2.2.1 < b.2.2.1) ||
            (decide (a.2.2.1 = b.2.2.1) && decide (a.2.2.2 ≤ b.2.2.2))))))

/-- `aggregate_by_day` (`inside_trades.py` lines 66-76): fold the
transactions into an insertion-ordered dict keyed by `(date, flag)`,
then emit `(date, shares, amount, flag)` tuples sorted by Python's
tuple order. -/
def aggregate_by_day (ts : List Txn) : List (Nat × Rat × Rat × Nat) :=
  let daily := ts.foldl addTxn []
  (daily.map (fun e => (e.1.1, e.2.1, e.2.2, e.1.2))).mergeSort tupLe

/-- `new_df` construction in `inside_trades.py` lines 177-181: turn the
aggregated tuples into rows and sort by date. -/
def tradeRowsOf (txns : List Txn) : List TradeRow :=
  sort_values TradeRow.date
    ((aggregate_by_day txns).map (fun r => ⟨r.1, r.2.1, r.2.2.1, r.2.2.2⟩))

/-- The five-way per-ticker outcome classification of both batch runners. -/
inductive Outcome where
  | upToDate : Outcome
  | noData : Outcome
  | noCandles : Outcome
  | noNewData : Outcome
  | created : Nat → Outcome
  | appended : Nat → Outcome
  | error : String → Outcome
deriving DecidableEq, Repr

/-- Whether an outcome rewrites the ticker's backing file
(only the fresh-create and append branches call `to_csv`). -/
def writesFile : Outcome → Bool
  | .created _ => true
  | .appended _ => true
  | _ => false

/-- The per-ticker body of `scrape_yahoo_finance` (`candles.py` lines 30-94),
with the Yahoo Finance response passed in as `fetched`.  `existing = none`
models a missing CSV file.  An existing-but-empty file makes
`existing_data['date'].max()` a `NaT`, whose `.date()` raises and is caught
by the `except` (file left unchanged). -/
def candleStep (existing : Option (List CandleRow)) (today : Nat)
    (fetched : List CandleRow) : Option (List CandleRow) × Outcome :=
  match existing with
  | none =>
    if fetched.isEmpty then (none, .noData)
    else (some (sort_values CandleRow.date fetched), .created fetched.length)
  | some ex =>
    if ex.isEmpty then (some ex, .error "NaT")
    else if today - 1 ≤ maxDate CandleRow.date ex then (some ex, .upToDate)
    else if fetched.isEmpty then (some ex, .noData)
    else
      let data := sort_values CandleRow.date fetched
      let new_data := data.filter (fun r => decide (maxDate CandleRow.date ex < r.date))
      if new_data.isEmpty then (some ex, .noNewData)
      else (some (upsertCandles ex data), .appended new_data.length)

/-- The per-ticker body of `scrape_insider_trades` (`inside_trades.py`
lines 104-196), with the candle CSV contents and the parsed transactions
passed in.  `last_insider_date` is `None` exactly when the trades file is
missing or empty, which routes to the fresh-create branch (line 194's
`if file_exists and last_insider_date is not None` fails). -/
def tradeStep (candles : Option (List CandleRow))
    (existing : Option (List TradeRow)) (txns : List Txn) :
    Option (List TradeRow) × Outcome :=
  match candles with
  | none => (existing, .noCandles)
  | some cd =>
    if cd.isEmpty then (existing, .noCandles)
    else
      match existing with
      | some ex =>
        if ex.isEmpty then
          if txns.isEmpty then (some ex, .noData)
          else (some (tradeRowsOf txns), .created (tradeRowsOf txns).length)
        else if maxDate CandleRow.date cd ≤ maxDate TradeRow.date ex then
          (some ex, .upToDate)
        else if txns.isEmpty then (some ex, .noData)
        else
          let df := tradeRowsOf txns
          let new_data := df.filter (fun r => decide (maxDate TradeRow.date ex < r.date))
          if new_data.isEmpty then (some ex, .noNewData)
          else (some (upsertTrades ex df), .appended new_data.length)
      | none =>
        if txns.isEmpty then (none, .noData)
        else (some (tradeRowsOf txns), .created (tradeRowsOf txns).length)

/-- The per-dataset file system: one optional CSV per ticker. -/
def Store (α : Type) : Type := String → Option α

/-- Overwrite one ticker's file. -/
def updateStore {α : Type} (st : Store α) (t : String) (v : Option α) : Store α :=
  fun u => if u = t then v else st u

/-- The ticker batch runner shared by both scrapers (`for ticker in tickers`
with `try/except`): run `act` on each ticker's file; a raised error is
caught, recorded as the ticker's outcome, and leaves the store unchanged;
the loop continues with the next ticker. -/
def tickerLoop {α : Type} (act : String → Option α → Except String (Option α × Outcome)) :
    List String → Store α → Store α × List (String × Outcome)
  | [], st => (st, [])
  | t :: ts, st =>
    match act t (st t) with
    | .error e =>
      let r := tickerLoop act ts st
      (r.1, (t, .error e) :: r.2)
    | .ok fo =>
      let r := tickerLoop act ts (updateStore st t fo.1)
      (r.1, (t, fo.2) :: r.2)

/-- The per-ticker action of `scrape_yahoo_finance`: the Yahoo Finance fetch
may raise (caught by the runner); on success run the candle step. -/
def candleAct (fetch : String → Except String (List CandleRow)) (today : Nat) :
    String → Option (List CandleRow) → Except String (Option (List CandleRow) × Outcome) :=
  fun t file => (fetch t).map (fun data => candleStep file today data)

/-- The `__main__` block of `inside_trades.py` lines 225-237: read the two
SEC identity credentials; `not company_name or not email` (absent or empty)
raises a `ValueError` before `scrape_insider_trades` is invoked; otherwise
the batch runs.  The batch is passed as a thunk so that the error branch
provably never evaluates it. -/
def scrape_insider_trades_main {β : Type} (company_name email : Option String)
    (batch : Unit → β) : Except String β :=
  if company_name.getD "" = "" || email.getD "" = "" then
    .error "SEC_COMPANY_NAME and SEC_EMAIL environment variables must be set"
  else
    .ok (batch ())

section MergeLemmas

variable {ρ : Type} {κ : Type} (dateOf : ρ → Nat) (key : ρ → κ) [DecidableEq κ]

theorem drop_duplicates_sublist (l : List ρ) :
    List.Sublist (drop_duplicates_keep_last key l) l := by
  induction l with
  | nil => exact List.Sublist.refl _
  | cons r rs ih =>
    rw [drop_duplicates_keep_last]
    split
    · exact ih.cons r
    · exact ih.cons₂ r

theorem mem_of_mem_drop_duplicates {l : List ρ} {r : ρ}
    (h : r ∈ drop_duplicates_keep_last key l) : r ∈ l :=
  (drop_duplicates_sublist key l).subset h

theorem pairwise_ne_drop_duplicates (l : List ρ) :
    (drop_duplicates_keep_last key l).Pairwise (fun a b => key a ≠ key b) := by
  induction l with
  | nil => exact List.Pairwise.nil
  | cons r rs ih =>
    rw [drop_duplicates_keep_last]
    split
    · exact ih
    · rename_i hany
      rw [List.pairwise_cons]
      refine ⟨fun b hb hkey => ?_, ih⟩
      exact hany (List.any_eq_true.mpr
        ⟨b, mem_of_mem_drop_duplicates key hb, by simpa using hkey.symm⟩)

theorem mem_drop_duplicates_of_unique {l : List ρ} {r : ρ} (hr : r ∈ l)
    (huniq : ∀ r2 ∈ l, key r2 = key r → r2 = r) :
    r ∈ drop_duplicates_keep_last key l := by
  induction l with
  | nil => cases hr
  | cons x xs ih =>
    rw [drop_duplicates_keep_last]
    rcases List.mem_cons.mp hr with hrx | hrxs
    · subst hrx
      split
      · rename_i hany
        rcases List.any_eq_true.mp hany with ⟨r2, hr2, hkey⟩
        have : r2 = r := huniq r2 (List.mem_cons_of_mem _ hr2) (by simpa using hkey)
        subst this
        exact ih hr2 (fun r3 h3 => huniq r3 (List.mem_cons_of_mem _ h3))
      · exact List.mem_cons_self _ _
    · have hmem := ih hrxs (fun r3 h3 => huniq r3 (List.mem_cons_of_mem _ h3))
      split
      · exact hmem
      · exact List.mem_cons_of_mem _ hmem

theorem le_maxDate {l : List ρ} {r : ρ} (h : r ∈ l) :
    dateOf r ≤ maxDate dateOf l := by
  induction l with
  | nil => cases h
  | cons x xs ih =>
    rcases List.mem_cons.mp h with hx | hxs
    · subst hx; exact Nat.le_max_left _ _
    · exact Nat.le_trans (ih hxs) (Nat.le_max_right _ _)

theorem maxDate_append (l1 l2 : List ρ) :
    maxDate dateOf (l1 ++ l2) = max (maxDate dateOf l1) (maxDate dateOf l2) := by
  induction l1 with
  | nil => simp [maxDate]
  | cons x xs ih =>
    simp only [List.cons_append, maxDate, List.foldr_cons] at *
    rw [ih, Nat.max_assoc]

theorem maxDate_perm {l1 l2 : List ρ} (h : l1.Perm l2) :
    maxDate dateOf l1 = maxDate dateOf l2 := by
  induction h with
  | nil => rfl
  | cons x _ ih => simp only [maxDate, List.foldr_cons] at *; rw [ih]
  | swap x y l =>
    simp only [maxDate, List.foldr_cons]
    rw [Nat.max_left_comm]
  | trans _ _ ih1 ih2 => exact ih1.trans ih2

theorem dateLe_trans (a b c : ρ) :
    decide (dateOf a ≤ dateOf b) → decide (dateOf b ≤ dateOf c) →
    decide (dateOf a ≤ dateOf c) := by
  simp only [decide_eq_true_eq]
  exact Nat.le_trans

theorem dateLe_total (a b : ρ) :
    decide (dateOf a ≤ dateOf b) || decide (dateOf b ≤ dateOf a) := by
  simpa using Nat.le_total (dateOf a) (dateOf b)

theorem sort_values_perm (l : List ρ) : (sort_values dateOf l).Perm l :=
  List.mergeSort_perm l _

theorem maxDate_sort_values (l : List ρ) :
    maxDate dateOf (sort_values dateOf l) = maxDate dateOf l :=
  maxDate_perm dateOf (sort_values_perm dateOf l)

theorem sorted_sort_values (l : List ρ) :
    (sort_values dateOf l).Pairwise (fun a b => dateOf a ≤ dateOf b) := by
  have h := @List.sorted_mergeSort ρ (fun a b => decide (dateOf a ≤ dateOf b))
    (dateLe_trans dateOf) (dateLe_total dateOf) l
  exact h.imp (by simp)

theorem maxDate_drop_duplicates_of_sorted {l : List ρ}
    (hs : l.Pairwise (fun a b => dateOf a ≤ dateOf b)) :
    maxDate dateOf (drop_duplicates_keep_last key l) = maxDate dateOf l := by
  induction l with
  | nil => rfl
  | cons r rs ih =>
    rw [List.pairwise_cons] at hs
    rw [drop_duplicates_keep_last]
    split
    · rename_i hany
      rcases List.any_eq_true.mp hany with ⟨r2, hr2, _⟩
      have h1 : dateOf r ≤ maxDate dateOf rs :=
        Nat.le_trans (hs.1 r2 hr2) (le_maxDate dateOf hr2)
      have : maxDate dateOf (r :: rs) = maxDate dateOf rs := by
        simp only [maxDate, List.foldr_cons]
        exact Nat.max_eq_right h1
      rw [this, ih hs.2]
    · simp only [maxDate, List.foldr_cons]
      have := ih hs.2
      simp only [maxDate] at this
      rw [this]

theorem mem_upsert {ex inc : List ρ} {r : ρ}
    (h : r ∈ upsert dateOf key ex inc) :
    r ∈ ex ∨ (r ∈ inc ∧ maxDate dateOf ex < dateOf r) := by
  rw [upsert] at h
  split at h
  · exact Or.inl h
  · have h1 := mem_of_mem_drop_duplicates key h
    have h2 := (sort_values_perm dateOf _).mem_iff.mp h1
    rcases List.mem_append.mp h2 with hex | hnd
    · exact Or.inl hex
    · rcases List.mem_filter.mp hnd with ⟨hinc, hlt⟩
      exact Or.inr ⟨hinc, by simpa using hlt⟩

theorem maxDate_upsert_eq {ex inc : List ρ}
    (hne : ¬(inc.filter (fun r => decide (maxDate dateOf ex < dateOf r))).isEmpty) :
    maxDate dateOf (upsert dateOf key ex inc) =
      maxDate dateOf (ex ++ inc.filter (fun r => decide (maxDate dateOf ex < dateOf r))) := by
  rw [upsert]
  split
  · rename_i h; exact absurd h hne
  · rw [maxDate_drop_duplicates_of_sorted dateOf key (sorted_sort_values dateOf _),
      maxDate_sort_values]

/-- Idempotence of the shared merge: re-running with the same incoming batch
against the first run's result filters everything out and is a no-op. -/
theorem upsert_idem (ex inc : List ρ) :
    upsert dateOf key (upsert dateOf key ex inc) inc = upsert dateOf key ex inc := by
  by_cases hnd : (inc.filter (fun r => decide (maxDate dateOf ex < dateOf r))).isEmpty
  · have hex : upsert dateOf key ex inc = ex := by rw [upsert]; simp [hnd]
    rw [hex, upsert]; simp [hnd]
  · have hmax := maxDate_upsert_eq dateOf key hnd
    have hfilter : inc.filter
        (fun r => decide (maxDate dateOf (upsert dateOf key ex inc) < dateOf r)) = [] := by
      rw [List.filter_eq_nil_iff]
      intro r hr
      simp only [decide_eq_true_eq, Nat.not_lt]
      rw [hmax, maxDate_append]
      by_cases hgt : maxDate dateOf ex < dateOf r
      · have hrf : r ∈ ex ++ inc.filter (fun r => decide (maxDate dateOf ex < dateOf r)) :=
          List.mem_append_right _ (List.mem_filter.mpr ⟨hr, by simpa using hgt⟩)
        have := le_maxDate dateOf hrf
        rwa [maxDate_append] at this
      · exact Nat.le_trans (Nat.le_of_not_lt hgt) (Nat.le_max_left _ _)
    rw [upsert]
    simp [hfilter]

end MergeLemmas

section MoreMergeLemmas

variable {ρ : Type} {κ : Type} (dateOf : ρ → Nat) (key : ρ → κ) [DecidableEq κ]

theorem sorted_upsert {ex : List ρ} (inc : List ρ)
    (hs : ex.Pairwise (fun a b => dateOf a ≤ dateOf b)) :
    (upsert dateOf key ex inc).Pairwise (fun a b => dateOf a ≤ dateOf b) := by
  rw [upsert]
  split
  · exact hs
  · exact (sorted_sort_values dateOf _).sublist (drop_duplicates_sublist key _)

theorem pairwise_key_upsert {ex : List ρ} (inc : List ρ)
    (hk : ex.Pairwise (fun a b => key a ≠ key b)) :
    (upsert dateOf key ex inc).Pairwise (fun a b => key a ≠ key b) := by
  rw [upsert]
  split
  · exact hk
  · exact pairwise_ne_drop_duplicates key _

omit [DecidableEq κ] in
theorem pairwise_key_sort_values {l : List ρ}
    (hk : l.Pairwise (fun a b => key a ≠ key b)) :
    (sort_values dateOf l).Pairwise (fun a b => key a ≠ key b) :=
  ((sort_values_perm dateOf l).pairwise_iff (fun h e => h e.symm)).mpr hk

theorem upsert_no_new {ex inc : List ρ}
    (h : ∀ r ∈ inc, dateOf r ≤ maxDate dateOf ex) :
    upsert dateOf key ex inc = ex := by
  have hf : inc.filter (fun r => decide (maxDate dateOf ex < dateOf r)) = [] := by
    rw [List.filter_eq_nil_iff]
    intro r hr
    simpa using Nat.not_lt.mpr (h r hr)
  rw [upsert]
  simp [hf]

end MoreMergeLemmas

/-- C1 (confirmed): the upsert of both scrapers is idempotent — applying it a
second time with the same incoming batch against the result of the first
application returns that result unchanged, because the second run's
filtered-incoming set is empty. -/
theorem claim_C1 :
    (∀ existing incoming : List CandleRow,
      upsertCandles (upsertCandles existing incoming) incoming =
        upsertCandles existing incoming) ∧
    (∀ existing incoming : List TradeRow,
      upsertTrades (upsertTrades existing incoming) incoming =
        upsertTrades existing incoming) :=
  ⟨fun ex inc => upsert_idem CandleRow.date CandleRow.date ex inc,
   fun ex inc => upsert_idem TradeRow.date keyTrade ex inc⟩

/-- C2 (confirmed): for valid inputs (incoming batches with pairwise-distinct
dedupe keys on the fresh-create path; existing series satisfying the store
invariant on the append path) the produced series is ascending by date with
no two rows sharing a dedupe key — strictly ascending dates for candles,
where the key is the date itself. -/
theorem claim_C2 :
    (∀ incoming : List CandleRow,
      incoming.Pairwise (fun a b => a.date ≠ b.date) →
      (sort_values CandleRow.date incoming).Pairwise (fun a b => a.date < b.date)) ∧
    (∀ existing incoming : List CandleRow,
      existing.Pairwise (fun a b => a.date ≤ b.date) →
      existing.Pairwise (fun a b => a.date ≠ b.date) →
      (upsertCandles existing incoming).Pairwise (fun a b => a.date < b.date)) ∧
    (∀ incoming : List TradeRow,
      incoming.Pairwise (fun a b => keyTrade a ≠ keyTrade b) →
      (sort_values TradeRow.date incoming).Pairwise (fun a b => a.date ≤ b.date) ∧
      (sort_values TradeRow.date incoming).Pairwise (fun a b => keyTrade a ≠ keyTrade b)) ∧
    (∀ existing incoming : List TradeRow,
      existing.Pairwise (fun a b => a.date ≤ b.date) →
      existing.Pairwise (fun a b => keyTrade a ≠ keyTrade b) →
      (upsertTrades existing incoming).Pairwise (fun a b => a.date ≤ b.date) ∧
      (upsertTrades existing incoming).Pairwise (fun a b => keyTrade a ≠ keyTrade b)) := by
  refine ⟨fun inc hk => ?_, fun ex inc hs hk => ?_, fun inc hk => ?_, fun ex inc hs hk => ?_⟩
  · exact ((sorted_sort_values CandleRow.date inc).and
      (pairwise_key_sort_values CandleRow.date CandleRow.date hk)).imp
      (fun h => Nat.lt_of_le_of_ne h.1 h.2)
  · exact ((sorted_upsert CandleRow.date CandleRow.date inc hs).and
      (pairwise_key_upsert CandleRow.date CandleRow.date inc hk)).imp
      (fun h => Nat.lt_of_le_of_ne h.1 h.2)
  · exact ⟨sorted_sort_values TradeRow.date inc,
      pairwise_key_sort_values TradeRow.date keyTrade hk⟩
  · exact ⟨sorted_upsert TradeRow.date keyTrade inc hs,
      pairwise_key_upsert TradeRow.date keyTrade inc hk⟩

/-- A concrete candle row whose numeric cells all carry the same value. -/
def cRow (d : Nat) (v : Rat) : CandleRow := ⟨d, v, v, v, v, v⟩

/-- A concrete insider-trade row. -/
def tRow (d : Nat) (s a : Rat) (b : Nat) : TradeRow := ⟨d, s, a, b⟩

/-- Witness for C2 at concrete inputs. -/
theorem claim_C2_witness :
    (([cRow 2 1, cRow 1 2] : List CandleRow).Pairwise (fun a b => a.date ≠ b.date) ∧
      (sort_values CandleRow.date [cRow 2 1, cRow 1 2]).Pairwise
        (fun a b => a.date < b.date)) ∧
    (([cRow 1 1, cRow 2 1] : List CandleRow).Pairwise (fun a b => a.date ≤ b.date) ∧
      (upsertCandles [cRow 1 1, cRow 2 1] [cRow 3 7]).Pairwise
        (fun a b => a.date < b.date)) ∧
    (([tRow 1 1 1 0, tRow 1 2 2 1] : List TradeRow).Pairwise
        (fun a b => keyTrade a ≠ keyTrade b) ∧
      (sort_values TradeRow.date [tRow 1 1 1 0, tRow 1 2 2 1]).Pairwise
        (fun a b => keyTrade a ≠ keyTrade b)) ∧
    (([tRow 1 1 1 0, tRow 2 1 1 1] : List TradeRow).Pairwise (fun a b => a.date ≤ b.date) ∧
      (upsertTrades [tRow 1 1 1 0, tRow 2 1 1 1] [tRow 3 5 5 0]).Pairwise
        (fun a b => keyTrade a ≠ keyTrade b)) :=
  ⟨⟨by decide, claim_C2.1 _ (by decide)⟩,
   ⟨by decide, claim_C2.2.1 _ _ (by decide) (by decide)⟩,
   ⟨by decide, (claim_C2.2.2.1 _ (by decide)).2⟩,
   ⟨by decide, (claim_C2.2.2.2 _ _ (by decide) (by decide)).2⟩⟩

/-- C5 (confirmed): every row of the upsert result comes either from the
existing series or from an incoming row whose date is strictly greater than
the existing maximum date; incoming rows with date ≤ the maximum (such as a
backfilled gap) are silently dropped. -/
theorem claim_C5 :
    (∀ (existing incoming : List CandleRow) (r : CandleRow),
      r ∈ upsertCandles existing incoming →
      r ∈ existing ∨ (r ∈ incoming ∧ maxDate CandleRow.date existing < r.date)) ∧
    (∀ (existing incoming : List TradeRow) (r : TradeRow),
      r ∈ upsertTrades existing incoming →
      r ∈ existing ∨ (r ∈ incoming ∧ maxDate TradeRow.date existing < r.date)) :=
  ⟨fun _ _ _ h => mem_upsert CandleRow.date CandleRow.date h,
   fun _ _ _ h => mem_upsert TradeRow.date keyTrade h⟩

/-- Witness for C5: existing max date is day 10, incoming holds day 5 (a
backfilled gap) and day 12; day 12 is appended and day 5 is dropped. -/
theorem claim_C5_witness :
    cRow 12 3 ∈ upsertCandles [cRow 10 1] [cRow 5 2, cRow 12 3] ∧
    (cRow 12 3 ∈ [cRow 10 1] ∨
      (cRow 12 3 ∈ [cRow 5 2, cRow 12 3] ∧
        maxDate CandleRow.date [cRow 10 1] < (cRow 12 3).date)) ∧
    cRow 5 2 ∉ upsertCandles [cRow 10 1] [cRow 5 2, cRow 12 3] := by
  have hval : upsertCandles [cRow 10 1] [cRow 5 2, cRow 12 3] = [cRow 10 1, cRow 12 3] := by
    simp [upsertCandles, upsert, maxDate, sort_values, drop_duplicates_keep_last,
      cRow, List.mergeSort]
  have hmem : cRow 12 3 ∈ upsertCandles [cRow 10 1] [cRow 5 2, cRow 12 3] := by
    rw [hval]; simp
  refine ⟨hmem, claim_C5.1 _ _ _ hmem, ?_⟩
  rw [hval]
  simp [cRow]

/-- C7 (confirmed): when no incoming row has a date strictly greater than the
existing maximum date, the upsert returns the existing series unchanged, and
the per-ticker step of either scraper never reaches a file-writing outcome. -/
theorem claim_C7 :
    (∀ existing incoming : List CandleRow,
      (∀ r ∈ incoming, r.date ≤ maxDate CandleRow.date existing) →
      upsertCandles existing incoming = existing) ∧
    (∀ (existing fetched : List CandleRow) (today : Nat),
      existing ≠ [] →
      (∀ r ∈ fetched, r.date ≤ maxDate CandleRow.date existing) →
      (candleStep (some existing) today fetched).1 = some existing ∧
      writesFile (candleStep (some existing) today fetched).2 = false) ∧
    (∀ existing incoming : List TradeRow,
      (∀ r ∈ incoming, r.date ≤ maxDate TradeRow.date existing) →
      upsertTrades existing incoming = existing) ∧
    (∀ (candles : List CandleRow) (existing : List TradeRow) (txns : List Txn),
      existing ≠ [] →
      (∀ r ∈ tradeRowsOf txns, r.date ≤ maxDate TradeRow.date existing) →
      (tradeStep (some candles) (some existing) txns).1 = some existing ∧
      writesFile (tradeStep (some candles) (some existing) txns).2 = false) := by
  refine ⟨fun ex inc h => upsert_no_new CandleRow.date CandleRow.date h,
    fun ex fetched today hne h => ?_,
    fun ex inc h => upsert_no_new TradeRow.date keyTrade h,
    fun cd ex txns hne h => ?_⟩
  · have hxe : ex.isEmpty = false := by simpa [List.isEmpty_iff] using hne
    have hf : ∀ data : List CandleRow, data.Perm fetched →
        data.filter (fun r => decide (maxDate CandleRow.date ex < r.date)) = [] := by
      intro data hperm
      rw [List.filter_eq_nil_iff]
      intro r hr
      simpa using Nat.not_lt.mpr (h r (hperm.subset hr))
    simp only [candleStep, hxe, Bool.false_eq_true, if_false]
    split_ifs with h1 h2 h3
    · exact ⟨rfl, rfl⟩
    · exact ⟨rfl, rfl⟩
    · exact ⟨rfl, rfl⟩
    · exact absurd (by simp [hf _ (sort_values_perm CandleRow.date fetched)]) h3
  · have hxe : ex.isEmpty = false := by simpa [List.isEmpty_iff] using hne
    have hf : (tradeRowsOf txns).filter
        (fun r => decide (maxDate TradeRow.date ex < r.date)) = [] := by
      rw [List.filter_eq_nil_iff]
      intro r hr
      simpa using Nat.not_lt.mpr (h r hr)
    rcases Decidable.em (cd.isEmpty = true) with hcd | hcd
    · simp [tradeStep, hcd, writesFile]
    · simp only [tradeStep, hcd, Bool.not_eq_true, if_false, hxe, Bool.false_eq_true]
      split_ifs with h1 h2 h3
      · exact ⟨rfl, rfl⟩
      · exact ⟨rfl, rfl⟩
      · exact ⟨rfl, rfl⟩
      · exact absurd (by simp [hf]) h3

section KeepExisting

variable {ρ : Type} {κ : Type} (dateOf : ρ → Nat) (key : ρ → κ) [DecidableEq κ]

/-- The strictly-greater staleness filter means a key collision between
`incoming` and `existing` always resolves in favour of the existing row:
the incoming row is filtered out before the dedupe can prefer it. -/
theorem upsert_keep_existing {ex inc : List ρ} {e r : ρ}
    (hkd : ∀ a b : ρ, key a = key b → dateOf a = dateOf b)
    (hk : ex.Pairwise (fun a b => key a ≠ key b))
    (he : e ∈ ex) (_hr : r ∈ inc) (hkey : key r = key e) :
    e ∈ upsert dateOf key ex inc ∧ (r ≠ e → r ∉ upsert dateOf key ex inc) := by
  have hdate : dateOf r = dateOf e := hkd r e hkey
  have hle : dateOf e ≤ maxDate dateOf ex := le_maxDate dateOf he
  have hkSymm : Symmetric (fun a b : ρ => key a ≠ key b) := fun a b h e => h e.symm
  constructor
  · rw [upsert]
    split
    · exact he
    · apply mem_drop_duplicates_of_unique
      · exact (sort_values_perm dateOf _).mem_iff.mpr (List.mem_append_left _ he)
      · intro r2 h2 hk2
        rcases List.mem_append.mp ((sort_values_perm dateOf _).subset h2) with h2ex | h2nd
        · by_contra hne
          exact hk.forall hkSymm h2ex he hne hk2
        · rcases List.mem_filter.mp h2nd with ⟨_, hlt⟩
          have : dateOf r2 = dateOf e := hkd r2 e hk2
          simp only [decide_eq_true_eq] at hlt
          omega
  · intro hne hmem
    rcases mem_upsert dateOf key hmem with hex2 | ⟨_, hlt⟩
    · exact hk.forall hkSymm hex2 he hne hkey
    · omega

end KeepExisting

/-- Counterexample to C3: existing holds date 1 with value 10, incoming
holds date 1 with value 99 (same dedupe key); the upsert filters the
incoming row out and returns the existing series, so the output carries the
existing row's values, not the incoming row's as the claim asserts. -/
theorem claim_C3_counterexample :
    (cRow 1 99).date = (cRow 1 10).date ∧
    cRow 1 99 ≠ cRow 1 10 ∧
    upsertCandles [cRow 1 10] [cRow 1 99] = [cRow 1 10] ∧
    cRow 1 99 ∉ upsertCandles [cRow 1 10] [cRow 1 99] := by
  have hval : upsertCandles [cRow 1 10] [cRow 1 99] = [cRow 1 10] := by
    simp [upsertCandles, upsert, maxDate, cRow]
  refine ⟨rfl, ?_, hval, ?_⟩
  · intro h
    rw [cRow, cRow, CandleRow.mk.injEq] at h
    norm_num at h
  · rw [hval]
    intro h
    rw [List.mem_singleton, cRow, cRow, CandleRow.mk.injEq] at h
    norm_num at h

/-- C3 (amended): if `incoming` contains a row with a date equal to an
existing row's date sharing the same dedupe key, the output contains the
EXISTING row's field values; the incoming row's values (when different) do
not appear, because the staleness filter drops every incoming row whose
date is not strictly greater than the existing maximum. -/
theorem claim_C3_amended :
    (∀ (existing incoming : List CandleRow) (e r : CandleRow),
      existing.Pairwise (fun a b => a.date ≠ b.date) →
      e ∈ existing → r ∈ incoming → r.date = e.date →
      e ∈ upsertCandles existing incoming ∧
        (r ≠ e → r ∉ upsertCandles existing incoming)) ∧
    (∀ (existing incoming : List TradeRow) (e r : TradeRow),
      existing.Pairwise (fun a b => keyTrade a ≠ keyTrade b) →
      e ∈ existing → r ∈ incoming → keyTrade r = keyTrade e →
      e ∈ upsertTrades existing incoming ∧
        (r ≠ e → r ∉ upsertTrades existing incoming)) :=
  ⟨fun _ _ _ _ hk he hr hkey =>
    upsert_keep_existing CandleRow.date CandleRow.date (fun _ _ h => h) hk he hr hkey,
   fun _ _ _ _ hk he hr hkey =>
    upsert_keep_existing TradeRow.date keyTrade
      (fun _ _ h => congrArg Prod.fst h) hk he hr hkey⟩

/-- Witness for the amended C3 at the counterexample input. -/
theorem claim_C3_amended_witness :
    (cRow 1 10 ∈ upsertCandles [cRow 1 10] [cRow 1 99] ∧
      cRow 1 99 ∉ upsertCandles [cRow 1 10] [cRow 1 99]) ∧
    (tRow 1 5 5 0 ∈ upsertTrades [tRow 1 5 5 0] [tRow 1 7 7 0] ∧
      tRow 1 7 7 0 ∉ upsertTrades [tRow 1 5 5 0] [tRow 1 7 7 0]) := by
  have hne1 : cRow 1 99 ≠ cRow 1 10 := by
    intro h
    rw [cRow, cRow, CandleRow.mk.injEq] at h
    norm_num at h
  have hne2 : tRow 1 7 7 0 ≠ tRow 1 5 5 0 := by
    intro h
    rw [tRow, tRow, TradeRow.mk.injEq] at h
    norm_num at h
  have h1 := claim_C3_amended.1 [cRow 1 10] [cRow 1 99] (cRow 1 10) (cRow 1 99)
    (by decide) (by simp) (by simp) rfl
  have h2 := claim_C3_amended.2 [tRow 1 5 5 0] [tRow 1 7 7 0] (tRow 1 5 5 0) (tRow 1 7 7 0)
    (by decide) (by simp) (by simp) rfl
  exact ⟨⟨h1.1, h1.2 hne1⟩, ⟨h2.1, h2.2 hne2⟩⟩

/-- Witness for C7 at concrete inputs: existing max date 10, incoming only
dates ≤ 10; nothing is appended and no file is written. -/
theorem claim_C7_witness :
    upsertCandles [cRow 10 1] [cRow 4 2, cRow 10 9] = [cRow 10 1] ∧
    (candleStep (some [cRow 10 1]) 20 [cRow 4 2, cRow 10 9]).1 = some [cRow 10 1] ∧
    writesFile (candleStep (some [cRow 10 1]) 20 [cRow 4 2, cRow 10 9]).2 = false ∧
    upsertTrades [tRow 10 1 1 0] [tRow 9 2 2 1] = [tRow 10 1 1 0] ∧
    (tradeStep (some [cRow 20 1]) (some [tRow 10 1 1 0]) []).1 = some [tRow 10 1 1 0] ∧
    writesFile (tradeStep (some [cRow 20 1]) (some [tRow 10 1 1 0]) []).2 = false := by
  have h1 : ∀ r ∈ [cRow 4 2, cRow 10 9], r.date ≤ maxDate CandleRow.date [cRow 10 1] := by
    decide
  have h2 : ∀ r ∈ [tRow 9 2 2 1], r.date ≤ maxDate TradeRow.date [tRow 10 1 1 0] := by
    decide
  have h3 : ∀ r ∈ tradeRowsOf [], r.date ≤ maxDate TradeRow.date [tRow 10 1 1 0] := by
    intro r hr
    simp [tradeRowsOf, aggregate_by_day, sort_values, List.mergeSort] at hr
  refine ⟨claim_C7.1 _ _ h1, ?_, ?_, claim_C7.2.2.1 _ _ h2, ?_, ?_⟩
  · exact (claim_C7.2.1 _ _ 20 (by simp) h1).1
  · exact (claim_C7.2.1 _ _ 20 (by simp) h1).2
  · exact (claim_C7.2.2.2 _ _ _ (by simp) h3).1
  · exact (claim_C7.2.2.2 _ _ _ (by simp) h3).2

/-- C6 (confirmed): for a non-empty existing series, the per-ticker step
skips fetching (returning the series and file unchanged, for any would-be
incoming batch) exactly when the existing maximum date is ≥ today − 1 for
candles, respectively ≥ the companion candle series' maximum date for
insider trades. -/
theorem claim_C6 :
    (∀ (existing fetched : List CandleRow) (today : Nat),
      existing ≠ [] →
      ((candleStep (some existing) today fetched).2 = Outcome.upToDate ↔
        today - 1 ≤ maxDate CandleRow.date existing) ∧
      (today - 1 ≤ maxDate CandleRow.date existing →
        candleStep (some existing) today fetched = (some existing, Outcome.upToDate))) ∧
    (∀ (candles : List CandleRow) (existing : List TradeRow) (txns : List Txn),
      candles ≠ [] → existing ≠ [] →
      ((tradeStep (some candles) (some existing) txns).2 = Outcome.upToDate ↔
        maxDate CandleRow.date candles ≤ maxDate TradeRow.date existing) ∧
      (maxDate CandleRow.date candles ≤ maxDate TradeRow.date existing →
        tradeStep (some candles) (some existing) txns = (some existing, Outcome.upToDate))) := by
  constructor
  · intro ex fetched today hne
    have hxe : ex.isEmpty = false := by simpa [List.isEmpty_iff] using hne
    simp only [candleStep, hxe, Bool.false_eq_true, if_false]
    split_ifs with h1 h2 h3
    · exact ⟨⟨fun _ => h1, fun _ => rfl⟩, fun _ => rfl⟩
    all_goals exact ⟨⟨fun h => absurd h (by simp), fun h => absurd h h1⟩, fun h => absurd h h1⟩
  · intro cd ex txns hcd hne
    have hce : cd.isEmpty = false := by simpa [List.isEmpty_iff] using hcd
    have hxe : ex.isEmpty = false := by simpa [List.isEmpty_iff] using hne
    simp only [tradeStep, hce, hxe, Bool.false_eq_true, if_false]
    split_ifs with h1 h2 h3
    · exact ⟨⟨fun _ => h1, fun _ => rfl⟩, fun _ => rfl⟩
    all_goals exact ⟨⟨fun h => absurd h (by simp), fun h => absurd h h1⟩, fun h => absurd h h1⟩

/-- Witness for C6: existing candle max date is yesterday (today − 1), so
the candle step skips; existing insider max equals the candle max, so the
trade step skips. -/
theorem claim_C6_witness :
    ((candleStep (some [cRow 9 1]) 10 [cRow 10 5]).2 = Outcome.upToDate ↔
      10 - 1 ≤ maxDate CandleRow.date [cRow 9 1]) ∧
    candleStep (some [cRow 9 1]) 10 [cRow 10 5] = (some [cRow 9 1], Outcome.upToDate) ∧
    tradeStep (some [cRow 9 1]) (some [tRow 9 1 1 0]) [⟨10, 1, 1, 0⟩] =
      (some [tRow 9 1 1 0], Outcome.upToDate) := by
  have h1 := claim_C6.1 [cRow 9 1] [cRow 10 5] 10 (by simp)
  have h2 := claim_C6.2 [cRow 9 1] [tRow 9 1 1 0] [⟨10, 1, 1, 0⟩] (by simp) (by simp)
  exact ⟨h1.1, h1.2 (by decide), h2.2 (by decide)⟩

/-- C10 (confirmed): an existing-but-empty insider-trades file derives no
last insider date, skips the up-to-date check, and takes the fresh-create
path: the freshly aggregated data wholly overwrites the file, with no
filtering against existing dates and no merge — identical to the
missing-file path. -/
theorem claim_C10 :
    ∀ (candles : List CandleRow) (txns : List Txn),
      candles ≠ [] → txns ≠ [] →
      tradeStep (some candles) (some []) txns =
        (some (tradeRowsOf txns), Outcome.created (tradeRowsOf txns).length) ∧
      tradeStep (some candles) (some []) txns = tradeStep (some candles) none txns := by
  intro cd txns hcd htx
  have hce : cd.isEmpty = false := by simpa [List.isEmpty_iff] using hcd
  have hte : txns.isEmpty = false := by simpa [List.isEmpty_iff] using htx
  constructor
  · simp [tradeStep, hce, hte]
  · simp [tradeStep, hce, hte]

/-- Witness for C10 at a concrete input. -/
theorem claim_C10_witness :
    tradeStep (some [cRow 5 1]) (some []) [⟨3, 1, 1, 1⟩] =
      (some (tradeRowsOf [⟨3, 1, 1, 1⟩]),
        Outcome.created (tradeRowsOf [⟨3, 1, 1, 1⟩]).length) ∧
    tradeStep (some [cRow 5 1]) (some []) [⟨3, 1, 1, 1⟩] =
      tradeStep (some [cRow 5 1]) none [⟨3, 1, 1, 1⟩] :=
  claim_C10 [cRow 5 1] [⟨3, 1, 1, 1⟩] (by simp) (by simp)

theorem tickerLoop_append {α : Type}
    (act : String → Option α → Except String (Option α × Outcome))
    (l1 l2 : List String) (st : Store α) :
    tickerLoop act (l1 ++ l2) st =
      ((tickerLoop act l2 (tickerLoop act l1 st).1).1,
       (tickerLoop act l1 st).2 ++ (tickerLoop act l2 (tickerLoop act l1 st).1).2) := by
  induction l1 generalizing st with
  | nil => simp [tickerLoop]
  | cons t ts ih =>
    simp only [List.cons_append, tickerLoop]
    cases act t (st t) with
    | error e => simp [ih]
    | ok fo => simp [ih]

/-- C8 (confirmed): a ticker whose action raises is caught and recorded as
an error outcome without aborting the batch; the final store is identical
to the store produced by the batch with the failing ticker absent, and
every other ticker's outcome is unchanged. -/
theorem claim_C8 {α : Type}
    (act : String → Option α → Except String (Option α × Outcome))
    (l1 l2 : List String) (t2 e : String) (st : Store α)
    (hfail : ∀ file, act t2 file = Except.error e) :
    tickerLoop act (l1 ++ t2 :: l2) st =
      ((tickerLoop act (l1 ++ l2) st).1,
       (tickerLoop act l1 st).2 ++
         (t2, Outcome.error e) ::
           (tickerLoop act l2 (tickerLoop act l1 st).1).2) := by
  rw [tickerLoop_append, tickerLoop_append]
  simp [tickerLoop, hfail]

/-- A three-ticker fetch in which ticker "B" fails. -/
def fetchB : String → Except String (List CandleRow) :=
  fun t => if t = "B" then Except.error "boom" else Except.ok [cRow 1 1]

/-- Witness for C8: tickers A, B, C with B's fetch failing; A and C produce
the same store as the two-ticker batch without B, and B is recorded as an
error. -/
theorem claim_C8_witness :
    tickerLoop (candleAct fetchB 100) (["A"] ++ "B" :: ["C"]) (fun _ => none) =
      ((tickerLoop (candleAct fetchB 100) (["A"] ++ ["C"]) (fun _ => none)).1,
       (tickerLoop (candleAct fetchB 100) ["A"] (fun _ => none)).2 ++
         ("B", Outcome.error "boom") ::
           (tickerLoop (candleAct fetchB 100) ["C"]
             (tickerLoop (candleAct fetchB 100) ["A"] (fun _ => none)).1).2) :=
  claim_C8 (candleAct fetchB 100) ["A"] ["C"] "B" "boom" (fun _ => none)
    (fun _ => by simp [candleAct, fetchB, Except.map])

/-- C9 (confirmed): the filings entry point raises a fatal configuration
error when either identity credential is absent or empty — without ever
invoking the batch (the result is independent of the batch function) — and
runs the batch when both are present. -/
theorem claim_C9 {β : Type} (company_name email : Option String) (batch : Unit → β) :
    ((company_name.getD "" = "" ∨ email.getD "" = "") →
      scrape_insider_trades_main company_name email batch =
        Except.error "SEC_COMPANY_NAME and SEC_EMAIL environment variables must be set" ∧
      (∀ batch2 : Unit → β, scrape_insider_trades_main company_name email batch =
        scrape_insider_trades_main company_name email batch2)) ∧
    (company_name.getD "" ≠ "" → email.getD "" ≠ "" →
      scrape_insider_trades_main company_name email batch = Except.ok (batch ())) := by
  constructor
  · intro hbad
    have hcond : (company_name.getD "" = "" ∨ email.getD "" = "") := hbad
    constructor
    · rw [scrape_insider_trades_main, if_pos (by simpa using hcond)]
    · intro batch2
      rw [scrape_insider_trades_main, scrape_insider_trades_main,
        if_pos (by simpa using hcond), if_pos (by simpa using hcond)]
  · intro hc he
    rw [scrape_insider_trades_main, if_neg (by simp [hc, he])]

/-- Witness for C9: a missing company name aborts regardless of the batch;
both credentials present runs the batch. -/
theorem claim_C9_witness :
    (scrape_insider_trades_main none (some "a@b.c") (fun _ => (0 : Nat)) =
      Except.error "SEC_COMPANY_NAME and SEC_EMAIL environment variables must be set" ∧
      (∀ batch2 : Unit → Nat, scrape_insider_trades_main none (some "a@b.c")
        (fun _ => (0 : Nat)) = scrape_insider_trades_main none (some "a@b.c") batch2)) ∧
    scrape_insider_trades_main (some "Acme") (some "a@b.c") (fun _ => (7 : Nat)) =
      Except.ok 7 :=
  ⟨(claim_C9 none (some "a@b.c") (fun _ => (0 : Nat))).1 (Or.inl rfl),
   (claim_C9 (some "Acme") (some "a@b.c") (fun _ => (7 : Nat))).2
     (by simp) (by simp)⟩

/-- Total shares over all transactions sharing a `(date, flag)` key. -/
def sumShares (ts : List Txn) (k : Nat × Nat) : Rat :=
  ((ts.filter (fun t => decide (txnKey t = k))).map Txn.shares).sum

/-- Total dollar amount over all transactions sharing a `(date, flag)` key. -/
def sumAmount (ts : List Txn) (k : Nat × Nat) : Rat :=
  ((ts.filter (fun t => decide (txnKey t = k))).map Txn.amount).sum

theorem sumShares_append_single (ts : List Txn) (t : Txn) (k : Nat × Nat) :
    sumShares (ts ++ [t]) k =
      sumShares ts k + (if txnKey t = k then t.shares else 0) := by
  rw [sumShares, sumShares, List.filter_append]
  by_cases h : txnKey t = k
  · simp [h]
  · simp [h]

theorem sumAmount_append_single (ts : List Txn) (t : Txn) (k : Nat × Nat) :
    sumAmount (ts ++ [t]) k =
      sumAmount ts k + (if txnKey t = k then t.amount else 0) := by
  rw [sumAmount, sumAmount, List.filter_append]
  by_cases h : txnKey t = k
  · simp [h]
  · simp [h]

theorem sumShares_of_not_mem {ts : List Txn} {k : Nat × Nat}
    (h : k ∉ ts.map txnKey) : sumShares ts k = 0 := by
  have : ts.filter (fun t => decide (txnKey t = k)) = [] := by
    rw [List.filter_eq_nil_iff]
    intro t ht
    simp only [decide_eq_true_eq]
    exact fun e => h (e ▸ List.mem_map_of_mem txnKey ht)
  simp [sumShares, this]

theorem sumAmount_of_not_mem {ts : List Txn} {k : Nat × Nat}
    (h : k ∉ ts.map txnKey) : sumAmount ts k = 0 := by
  have : ts.filter (fun t => decide (txnKey t = k)) = [] := by
    rw [List.filter_eq_nil_iff]
    intro t ht
    simp only [decide_eq_true_eq]
    exact fun e => h (e ▸ List.mem_map_of_mem txnKey ht)
  simp [sumAmount, this]

/-- Invariant of the `daily` dict of `aggregate_by_day` after processing the
transaction list `ts`: keys are distinct, the key set matches the keys seen
in `ts`, and every entry carries the running share/amount sums. -/
def DailyInv (ts : List Txn) (daily : List ((Nat × Nat) × Rat × Rat)) : Prop :=
  (daily.map Prod.fst).Nodup ∧
  (∀ k, k ∈ daily.map Prod.fst ↔ k ∈ ts.map txnKey) ∧
  (∀ e ∈ daily, e.2.1 = sumShares ts e.1 ∧ e.2.2 = sumAmount ts e.1)

theorem dailyInv_step {ts : List Txn} {daily : List ((Nat × Nat) × Rat × Rat)}
    (h : DailyInv ts daily) (t : Txn) : DailyInv (ts ++ [t]) (addTxn daily t) := by
  obtain ⟨hnd, hkeys, hvals⟩ := h
  rw [addTxn]
  split
  · rename_i hany
    rcases List.any_eq_true.mp hany with ⟨e0, he0, hk0⟩
    simp only [decide_eq_true_eq] at hk0
    have hmapfst : (daily.map
        (fun e => if e.1 = txnKey t then (e.1, e.2.1 + t.shares, e.2.2 + t.amount) else e)).map
          Prod.fst = daily.map Prod.fst := by
      rw [List.map_map]
      apply List.map_congr_left
      intro e _
      by_cases he : e.1 = txnKey t <;> simp [he]
    refine ⟨by rw [hmapfst]; exact hnd, fun k => ?_, fun e he => ?_⟩
    · rw [hmapfst, List.map_append]
      simp only [List.mem_append]
      constructor
      · intro hk
        exact Or.inl ((hkeys k).mp hk)
      · rintro (hk | hk)
        · exact (hkeys k).mpr hk
        · simp only [List.map_cons, List.map_nil, List.mem_singleton] at hk
          subst hk
          exact hk0 ▸ List.mem_map_of_mem Prod.fst he0
    · rcases List.mem_map.mp he with ⟨e1, he1, hev⟩
      by_cases hke : e1.1 = txnKey t
      · have hv := hvals e1 he1
        rw [hke] at hv
        simp only [hke, if_true] at hev
        subst hev
        rw [sumShares_append_single, sumAmount_append_single, if_pos rfl, if_pos rfl]
        exact ⟨by rw [hv.1], by rw [hv.2]⟩
      · simp only [hke, if_false] at hev
        subst hev
        have hv := hvals e1 he1
        rw [sumShares_append_single, sumAmount_append_single,
          if_neg (fun e => hke e.symm), if_neg (fun e => hke e.symm)]
        simpa using hv
  · rename_i hany
    have hknew : txnKey t ∉ daily.map Prod.fst := by
      intro hk
      rcases List.mem_map.mp hk with ⟨e0, he0, hk0⟩
      exact hany (List.any_eq_true.mpr ⟨e0, he0, by simpa using hk0⟩)
    have hknots : txnKey t ∉ ts.map txnKey := fun hk => hknew ((hkeys _).mpr hk)
    refine ⟨?_, fun k => ?_, fun e he => ?_⟩
    · rw [List.map_append]
      refine List.Nodup.append hnd (List.nodup_singleton _) ?_
      intro k hk1 hk2
      simp only [List.map_cons, List.map_nil, List.mem_singleton] at hk2
      subst hk2
      exact absurd hk1 hknew
    · rw [List.map_append, List.map_append]
      simp only [List.mem_append, List.map_cons, List.map_nil, List.mem_singleton]
      constructor
      · rintro (hk | hk)
        · exact Or.inl ((hkeys k).mp hk)
        · exact Or.inr hk
      · rintro (hk | hk)
        · exact Or.inl ((hkeys k).mpr hk)
        · exact Or.inr hk
    · rcases List.mem_append.mp he with hold | hnew
      · have hv := hvals e hold
        have hke : e.1 ≠ txnKey t := by
          intro hEq
          exact hknew (hEq ▸ List.mem_map_of_mem Prod.fst hold)
        rw [sumShares_append_single, sumAmount_append_single,
          if_neg (fun hEq => hke hEq.symm), if_neg (fun hEq => hke hEq.symm)]
        simpa using hv
      · simp only [List.mem_singleton] at hnew
        subst hnew
        simp only
        rw [sumShares_append_single, sumAmount_append_single, if_pos rfl, if_pos rfl,
          sumShares_of_not_mem hknots, sumAmount_of_not_mem hknots]
        exact ⟨by ring, by ring⟩

theorem dailyInv_foldl (ts2 : List Txn) :
    ∀ (ts1 : List Txn) (daily : List ((Nat × Nat) × Rat × Rat)),
      DailyInv ts1 daily → DailyInv (ts1 ++ ts2) (ts2.foldl addTxn daily) := by
  induction ts2 with
  | nil => intro ts1 daily h; simpa using h
  | cons t ts2 ih =>
    intro ts1 daily h
    have := ih (ts1 ++ [t]) (addTxn daily t) (dailyInv_step h t)
    simpa using this

theorem dailyInv_final (ts : List Txn) : DailyInv ts (ts.foldl addTxn []) := by
  have h0 : DailyInv [] [] := ⟨by simp, by simp, by simp⟩
  simpa using dailyInv_foldl ts [] [] h0

theorem tupLe_trans (a b c : Nat × Rat × Rat × Nat) :
    tupLe a b → tupLe b c → tupLe a c := by
  obtain ⟨a1, a2, a3, a4⟩ := a
  obtain ⟨b1, b2, b3, b4⟩ := b
  obtain ⟨c1, c2, c3, c4⟩ := c
  simp only [tupLe, Bool.or_eq_true, Bool.and_eq_true, decide_eq_true_eq]
  rintro (h1 | ⟨rfl, h1⟩) (h2 | ⟨rfl, h2⟩)
  · exact Or.inl (Nat.lt_trans h1 h2)
  · exact Or.inl h1
  · exact Or.inl h2
  · refine Or.inr ⟨rfl, ?_⟩
    rcases h1 with h1 | ⟨rfl, h1⟩ <;> rcases h2 with h2 | ⟨rfl, h2⟩
    · exact Or.inl (lt_trans h1 h2)
    · exact Or.inl h1
    · exact Or.inl h2
    · refine Or.inr ⟨rfl, ?_⟩
      rcases h1 with h1 | ⟨rfl, h1⟩ <;> rcases h2 with h2 | ⟨rfl, h2⟩
      · exact Or.inl (lt_trans h1 h2)
      · exact Or.inl h1
      · exact Or.inl h2
      · exact Or.inr ⟨rfl, Nat.le_trans h1 h2⟩

theorem tupLe_total (a b : Nat × Rat × Rat × Nat) :
    tupLe a b || tupLe b a := by
  obtain ⟨a1, a2, a3, a4⟩ := a
  obtain ⟨b1, b2, b3, b4⟩ := b
  simp only [tupLe, Bool.or_eq_true, Bool.and_eq_true, decide_eq_true_eq]
  rcases Nat.lt_trichotomy a1 b1 with h | h | h
  · exact Or.inl (Or.inl h)
  · subst h
    rcases lt_trichotomy a2 b2 with h | h | h
    · exact Or.inl (Or.inr ⟨rfl, Or.inl h⟩)
    · subst h
      rcases lt_trichotomy a3 b3 with h | h | h
      · exact Or.inl (Or.inr ⟨rfl, Or.inr ⟨rfl, Or.inl h⟩⟩)
      · subst h
        rcases Nat.le_total a4 b4 with h | h
        · exact Or.inl (Or.inr ⟨rfl, Or.inr ⟨rfl, Or.inr ⟨rfl, h⟩⟩⟩)
        · exact Or.inr (Or.inr ⟨rfl, Or.inr ⟨rfl, Or.inr ⟨rfl, h⟩⟩⟩)
      · exact Or.inr (Or.inr ⟨rfl, Or.inr ⟨rfl, Or.inl h⟩⟩)
    · exact Or.inr (Or.inr ⟨rfl, Or.inl h⟩)
  · exact Or.inr (Or.inl h)

/-- The key carried by an output row of `aggregate_by_day`. -/
def rowKey (r : Nat × Rat × Rat × Nat) : Nat × Nat := (r.1, r.2.2.2)

theorem aggregate_perm (ts : List Txn) :
    (aggregate_by_day ts).Perm
      ((ts.foldl addTxn []).map (fun e => (e.1.1, e.2.1, e.2.2, e.1.2))) :=
  List.mergeSort_perm _ _

theorem aggregate_mem_iff (ts : List Txn) (d : Nat) (s a : Rat) (b : Nat) :
    (d, s, a, b) ∈ aggregate_by_day ts ↔
      ((d, b) ∈ ts.map txnKey ∧ s = sumShares ts (d, b) ∧ a = sumAmount ts (d, b)) := by
  obtain ⟨hnd, hkeys, hvals⟩ := dailyInv_final ts
  rw [(aggregate_perm ts).mem_iff, List.mem_map]
  constructor
  · rintro ⟨e, he, hev⟩
    obtain ⟨hd, hs, ha, hb⟩ : e.1.1 = d ∧ e.2.1 = s ∧ e.2.2 = a ∧ e.1.2 = b := by
      rw [Prod.ext_iff, Prod.ext_iff, Prod.ext_iff] at hev
      exact ⟨hev.1, hev.2.1, hev.2.2.1, hev.2.2.2⟩
    have hke : e.1 = (d, b) := Prod.ext hd hb
    have hv := hvals e he
    rw [hke] at hv
    refine ⟨(hkeys (d, b)).mp (hke ▸ List.mem_map_of_mem Prod.fst he), ?_, ?_⟩
    · rw [← hs, hv.1]
    · rw [← ha, hv.2]
  · rintro ⟨hk, hs, ha⟩
    rcases List.mem_map.mp ((hkeys (d, b)).mpr hk) with ⟨e, he, hke⟩
    have hv := hvals e he
    rw [hke] at hv
    refine ⟨e, he, ?_⟩
    rw [Prod.ext_iff, Prod.ext_iff, Prod.ext_iff]
    have h1 : e.1.1 = d := congrArg Prod.fst hke
    have h2 : e.1.2 = b := congrArg Prod.snd hke
    exact ⟨h1, hv.1.trans hs.symm, hv.2.trans ha.symm, h2⟩

theorem aggregate_pairwise_keys (ts : List Txn) :
    (aggregate_by_day ts).Pairwise (fun x y => rowKey x ≠ rowKey y) := by
  obtain ⟨hnd, _, _⟩ := dailyInv_final ts
  have hsymm : ∀ {x y : Nat × Rat × Rat × Nat},
      rowKey x ≠ rowKey y → rowKey y ≠ rowKey x := fun h e => h e.symm
  refine ((aggregate_perm ts).pairwise_iff hsymm).mpr ?_
  have hdaily : (ts.foldl addTxn []).Pairwise (fun e1 e2 => e1.1 ≠ e2.1) := by
    rw [← List.pairwise_map]
    exact List.Pairwise.imp (fun h => h) hnd
  rw [List.pairwise_map]
  refine hdaily.imp ?_
  intro e1 e2 h hEq
  rw [rowKey, rowKey] at hEq
  simp only [Prod.mk.injEq] at hEq
  exact h (Prod.ext hEq.1 hEq.2)

theorem aggregate_sorted (ts : List Txn) :
    (aggregate_by_day ts).Pairwise (fun x y => tupLe x y = true) :=
  List.sorted_mergeSort tupLe_trans tupLe_total _

/-- Evaluation of the spec's own aggregation example: two buys of 5 and 3
shares and one sell of 2 shares, all on day 1.  Python's `sorted` on the
tuples puts the sell row (shares 2) before the buy row (shares 8). -/
theorem aggregate_example :
    aggregate_by_day [⟨3, 5, 50, 1⟩, ⟨3, 3, 30, 1⟩, ⟨3, 2, 20, 0⟩] =
      [(3, 2, 20, 0), (3, 8, 80, 1)] := by
  have hfold : ([⟨3, 5, 50, 1⟩, ⟨3, 3, 30, 1⟩, ⟨3, 2, 20, 0⟩] : List Txn).foldl addTxn []
      = [((3, 1), 8, 80), ((3, 0), 2, 20)] := by
    norm_num [List.foldl, addTxn, txnKey]
  have hle : tupLe (3, 8, 80, 1) (3, 2, 20, 0) = false := by
    simp only [tupLe, Bool.or_eq_false_iff, Bool.and_eq_false_iff,
      decide_eq_false_iff_not]
    norm_num
  rw [aggregate_by_day]
  rw [hfold]
  simp only [List.map_cons, List.map_nil]
  rw [List.mergeSort]
  norm_num [List.mergeSort, List.merge, hle]

/-- Counterexample to C4: on the spec's own example (two buys of 5 and 3
shares and one sell of 2 shares, all on day `d1 = 3`), the code returns the
sell row first — Python's `sorted` compares the whole `(date, shares,
amount, buy_flag)` tuple, and 2 < 8 — whereas the claim requires the buy
row first. -/
theorem claim_C4_counterexample :
    aggregate_by_day [⟨3, 5, 50, 1⟩, ⟨3, 3, 30, 1⟩, ⟨3, 2, 20, 0⟩] =
      [(3, 2, 20, 0), (3, 8, 80, 1)] ∧
    aggregate_by_day [⟨3, 5, 50, 1⟩, ⟨3, 3, 30, 1⟩, ⟨3, 2, 20, 0⟩] ≠
      [(3, 8, 80, 1), (3, 2, 20, 0)] := by
  refine ⟨aggregate_example, ?_⟩
  rw [aggregate_example]
  intro h
  rw [List.cons.injEq, Prod.ext_iff] at h
  have := h.1.2
  rw [Prod.ext_iff] at this
  have h2 : (2 : Rat) = 8 := this.1
  norm_num at h2

/-- C4 (amended): `aggregate_by_day` yields exactly one row per distinct
`(date, direction)` key, carrying the share and amount sums over all
transactions with that key; empty input yields empty output; and the result
is sorted ascending in the full-tuple order `(date, shares, amount,
buy_flag)` (NOT by `(date, direction)`), so the spec's example comes out as
`[{d1,2,20,sell}, {d1,8,80,buy}]`. -/
theorem claim_C4_amended :
    aggregate_by_day [] = [] ∧
    (∀ ts : List Txn,
      (aggregate_by_day ts).Pairwise (fun x y => rowKey x ≠ rowKey y) ∧
      (aggregate_by_day ts).Pairwise (fun x y => tupLe x y = true) ∧
      (∀ (d : Nat) (s a : Rat) (b : Nat),
        (d, s, a, b) ∈ aggregate_by_day ts ↔
          ((d, b) ∈ ts.map txnKey ∧
            s = sumShares ts (d, b) ∧ a = sumAmount ts (d, b)))) ∧
    aggregate_by_day [⟨3, 5, 50, 1⟩, ⟨3, 3, 30, 1⟩, ⟨3, 2, 20, 0⟩] =
      [(3, 2, 20, 0), (3, 8, 80, 1)] := by
  refine ⟨by simp [aggregate_by_day], fun ts => ?_, aggregate_example⟩
  exact ⟨aggregate_pairwise_keys ts, aggregate_sorted ts,
    fun d s a b => aggregate_mem_iff ts d s a b⟩

end StockPrediction
